import Mathlib

/-!
Verification of the Huffman-Encoding repository drivers
(`src/HuffmanCompress.cpp`, `src/AdaptiveHuffmanCompress.cpp`).

The two driver translation units are embedded shallowly below.  The helper
components (`FrequencyTable`, `CodeTree`, `CanonicalCode`, bit I/O, the
Huffman encoder) are not part of the repository's source tree; where a
claim depends on them they are modelled from the specification, and each
such definition carries a doc comment starting with `Modelled from the
spec:`.

Machine integers: every integer that appears in the drivers stays far
below its C++ type's range (`count` and the loop index are bounded by
`numberOfBytes = 143666240 < 2^31`), so they are embedded as `Nat`/`Int`
without wrap-around.  The one bit-level operation, `x & (x - 1)` inside
`isPowerOf2`, is embedded with `Nat.land`; C++ `&&` short-circuits, so the
subtraction only happens for `x > 0` and agrees with `Nat` subtraction.
-/

/-- `src/HuffmanCompress.cpp:47` and `src/AdaptiveHuffmanCompress.cpp:53`:
the hard-coded byte count both drivers use for the mapped input region. -/
def numberOfBytes : Nat := 143666240

/-- The mapped input region `unsigned char *data`: a total assignment of a
byte value to every offset.  Reads `data[i]` are `mem i`. -/
abbrev Mem : Type := Nat → Fin 256

/-! ## File write model (static driver lines 67, 96–98; adaptive lines 50, 87–89)

Each driver opens the output file with a truncating `std::ofstream`, writes
the encoded bytes through it, and then — after `bout.finish()` has flushed
the bit stream — reopens the same path with `fopen(outputFile, "wb")`
(truncating again) and writes the bytes of the external vector `v1`.
A file is modelled as the byte sequence produced by replaying the write
operations in program order. -/

/-- One operation on the output file: a truncating open, or an append of
a byte sequence through the currently open handle. -/
inductive FileOp where
  | openTrunc
  | writeBytes (bs : List Nat)

/-- Replay file operations in order: a truncating open discards the
current contents, a write appends. -/
def runFile (ops : List FileOp) : List Nat :=
  ops.foldl (fun acc op => match op with | .openTrunc => [] | .writeBytes bs => acc ++ bs) []

/-- Modelled from the spec: `v1` is declared `extern std::vector<char> v1;`
in both drivers and its defining translation unit is not in `src/`; §9 of
the spec records that the final bytes come "from an external buffer never
populated by the documented algorithm", so `v1` is the empty vector. -/
def v1 : List Nat := []

/-- The output-file operations each driver performs, given the bytes
`encoded` that the header/bit-stream phase pushed through the
`BitOutputStream`: truncating open of the output (line 67 / line 50),
the encoded bytes, then `fopen(outputFile, "wb")` and `fwrite(&v1[0], 1,
v1.size(), out1)` (lines 96–98 / 87–89). -/
def outputFileOps (encoded : List Nat) : List FileOp :=
  [.openTrunc, .writeBytes encoded, .openTrunc, .writeBytes v1]

/-- Final contents of the output file after a run of either driver. -/
def finalOutputFile (encoded : List Nat) : List Nat :=
  runFile (outputFileOps encoded)

/-! ## The rebuild schedule (adaptive driver lines 78 and 100–102) -/

/-- `src/AdaptiveHuffmanCompress.cpp:100-102`:
`return x > 0 && (x & (x - 1)) == 0;`. -/
def isPowerOf2 (x : Nat) : Bool :=
  decide (0 < x) && (x &&& (x - 1) == 0)

/-- `src/AdaptiveHuffmanCompress.cpp:78`: the condition guarding
`tree = freqs.buildCodeTree();`. -/
def rebuildCond (count : Nat) : Bool :=
  (decide (count < 262144) && isPowerOf2 count) || (count % 262144 == 0)

/-- `src/AdaptiveHuffmanCompress.cpp:80`: the condition guarding the
frequency-table reset. -/
def resetCond (count : Nat) : Bool :=
  count % 262144 == 0

/-! ## Header emission (static driver lines 71–80) -/

/-- `src/HuffmanCompress.cpp:78-79`: the eight bits
`(val >> j) & 1` for `j = 7, 6, ..., 0`, most significant first. -/
def bits8 (v : Nat) : List Bool :=
  (List.range 8).map fun j => decide ((v >>> (7 - j)) &&& 1 = 1)

/-- Big-endian value of a bit list (most significant bit first). -/
def ofBitsBE (bs : List Bool) : Nat :=
  bs.foldl (fun a b => 2 * a + (if b then 1 else 0)) 0

/-- `src/HuffmanCompress.cpp:72-80`: walk the code lengths for symbols
`0..256` in ascending order; for each value below 256 append its eight
big-endian bits to the stream, and on the first value `≥ 256` stop with
the domain error (`false`), keeping the bits already written. -/
def emitHeaderAux : List Nat → List Bool → List Bool × Bool
  | [], acc => (acc, true)
  | v :: rest, acc =>
    if 256 ≤ v then (acc, false) else emitHeaderAux rest (acc ++ bits8 v)

/-! ## Exception handling (static driver lines 69, 102–105; adaptive lines 58, 93–96) -/

/-- The exceptions that can travel out of either driver's `try` block:
`std::domain_error` (HuffmanCompress.cpp:76), `std::logic_error`
(HuffmanCompress.cpp:56,90; AdaptiveHuffmanCompress.cpp:72), or a thrown
C string, which is the only kind the drivers' `catch` clause names. -/
inductive CppExn where
  | domainError (msg : String)
  | logicError (msg : String)
  | cstr (msg : String)
deriving DecidableEq

/-- How a driver run can end at the `catch` boundary. -/
inductive Outcome where
  | exitSuccess
  | reportedFailure (msg : String)
  | uncaughtTermination (e : CppExn)
deriving DecidableEq

/-- `catch (const char *msg) { std::cerr << msg << std::endl; return
EXIT_FAILURE; }` (HuffmanCompress.cpp:102-105 and
AdaptiveHuffmanCompress.cpp:93-96).  Per C++ semantics a handler for
`const char *` matches only thrown C strings; `std::domain_error` and
`std::logic_error` objects do not match it and propagate out of `main`. -/
def tryCatchConstChar (body : Except CppExn Unit) : Outcome :=
  match body with
  | .ok _ => .exitSuccess
  | .error (.cstr m) => .reportedFailure m
  | .error e => .uncaughtTermination e

/-- The header-emission part of the static driver's `try` block
(HuffmanCompress.cpp:71-80) as an exception-producing computation:
it throws `std::domain_error("The code for a symbol is too long")`
exactly when `emitHeaderAux` stops on a length `≥ 256`. -/
def headerBody (lengths : List Nat) : Except CppExn Unit :=
  if (emitHeaderAux lengths []).2 then .ok ()
  else .error (.domainError "The code for a symbol is too long")

/-- The static driver's run restricted to the header phase, pushed through
its `try`/`catch` boundary. -/
def staticMainOutcome (lengths : List Nat) : Outcome :=
  tryCatchConstChar (headerBody lengths)

/-! ## CodeTree construction

`FrequencyTable.cpp`, `CodeTree.cpp` and `HuffmanCoder.cpp` are not in
`src/`; the definitions of this section are modelled from the spec
(§3, §4.1, §4.2, §4.5). -/

/-- Modelled from the spec, §3: a CodeTree — "a full binary tree ...
whose leaves are symbols and whose root-to-leaf path defines that
symbol's codeword (left = 0, right = 1)". -/
inductive Node where
  | leaf (sym : Nat)
  | internal (left right : Node)
deriving DecidableEq

/-- The symbols at the leaves of a node. -/
def symbolsOf : Node → List Nat
  | .leaf s => [s]
  | .internal l r => symbolsOf l ++ symbolsOf r

/-- Modelled from the spec, §4.2: a forest element, "tagged with
(frequency, smallest symbol index it contains)". -/
structure ForestItem where
  freq : Nat
  lowest : Nat
  node : Node
deriving DecidableEq

/-- Modelled from the spec, §4.2 tie-break rule: strictly lower frequency
first; on equal frequencies, the smaller minimum contained symbol index. -/
def itemLE (a b : ForestItem) : Bool :=
  decide (a.freq < b.freq) || (a.freq == b.freq && decide (a.lowest ≤ b.lowest))

/-- Extract the minimum item (first minimum, by `itemLE`) out of `x :: l`,
returning it together with the remaining items. -/
def removeMin (x : ForestItem) : List ForestItem → ForestItem × List ForestItem
  | [] => (x, [])
  | y :: ys =>
    if itemLE x y then
      let p := removeMin x ys
      (p.1, y :: p.2)
    else
      let p := removeMin y ys
      (p.1, x :: p.2)

/-- Modelled from the spec, §4.2: "Repeatedly extract the two
lowest-frequency nodes and merge them into a new internal node whose
frequency is their sum; continue until exactly one node — the root —
remains."  `fuel` bounds the number of merges; `buildCodeTree` passes
enough fuel that it is never exhausted. -/
def mergeLoop : Nat → List ForestItem → Option Node
  | _, [] => none
  | _, [x] => some x.node
  | 0, _ :: _ :: _ => none
  | fuel + 1, x :: y :: rest =>
    let p := removeMin x (y :: rest)
    match p.2 with
    | [] => none
    | z :: zs =>
      let q := removeMin z zs
      mergeLoop fuel
        ({ freq := p.1.freq + q.1.freq, lowest := min p.1.lowest q.1.lowest,
           node := .internal p.1.node q.1.node } :: q.2)

/-- Modelled from the spec, §4.2: the initial forest — "one leaf per
symbol with nonzero frequency", tagged with its frequency and its symbol. -/
def buildLeaves (freqs : List Nat) : List ForestItem :=
  (List.range freqs.length).filterMap fun s =>
    if 0 < freqs.getD s 0 then some ⟨freqs.getD s 0, s, .leaf s⟩ else none

/-- Modelled from the spec, §4.1–4.2: `FrequencyTable.buildCodeTree` —
build the leaf forest and merge; "If no symbol has nonzero frequency,
fail — a code tree cannot be built from an empty alphabet". -/
def buildCodeTree (freqs : List Nat) : Option Node :=
  mergeLoop (buildLeaves freqs).length (buildLeaves freqs)

/-- Modelled from the spec, §4.5: `HuffmanEncoder.encode` walks the tree
to the symbol's leaf, emitting the path (left = 0/false, right = 1/true);
`none` when "the symbol has no leaf in the current tree". -/
def encodeSym : Node → Nat → Option (List Bool)
  | .leaf s, sym => if s = sym then some [] else none
  | .internal l r, sym =>
    match encodeSym l sym with
    | some p => some (false :: p)
    | none =>
      match encodeSym r sym with
      | some p => some (true :: p)
      | none => none

/-- All leaf symbols of a forest. -/
def forestSyms (l : List ForestItem) : List Nat :=
  l.flatMap fun it => symbolsOf it.node

/-! ## FrequencyTable -/

/-- Modelled from the spec, §4.1: `FrequencyTable.increment(symbol)` —
"increases its count by 1" (`FrequencyTable.cpp` is not in `src/`).
Its range-error branch is unreachable at every call site in the drivers
(symbols are at most 256 and the tables have length 257), so the
embedding is total. -/
def increment (freqs : List Nat) (symbol : Nat) : List Nat :=
  freqs.set symbol (freqs.getD symbol 0 + 1)

/-! ## Static driver: the SCAN phase (`src/HuffmanCompress.cpp:50-59`) -/

/-- `src/HuffmanCompress.cpp:51-58`: the frequency-scan loop.  `i` is the
loop index, `fuel` the remaining iterations (`numberOfBytes - i`), and
`iters` counts the iterations that ran the loop body to completion.  The
byte is read into `int b`; `b == EOF` compares against `EOF = -1` and the
out-of-range check throws `std::logic_error("Assertion error")`. -/
def scanFrom (mem : Mem) : Nat → Nat → List Nat → Nat → Except String (List Nat × Nat)
  | _, 0, freqs, iters => .ok (freqs, iters)
  | i, fuel + 1, freqs, iters =>
    let b : Int := ((mem i).val : Int)
    if b = -1 then .ok (freqs, iters)
    else if b < 0 ∨ 255 < b then .error "Assertion error"
    else scanFrom mem (i + 1) fuel (increment freqs b.toNat) (iters + 1)

/-- `src/HuffmanCompress.cpp:50-59`: the whole SCAN phase — table
initialized to 257 zeros, the scan loop over the mapped region, then
`freqs.increment(256)` for the EOF symbol. -/
def staticScan (mem : Mem) : Except String (List Nat) :=
  (scanFrom mem 0 numberOfBytes (List.replicate 257 0) 0).map fun p => increment p.1 256

/-! ## Adaptive driver (`src/AdaptiveHuffmanCompress.cpp:60-85`) -/

/-- The adaptive compressor's loop state: frequency table, current code
tree, processed-symbol count, and the bits written so far. -/
structure AdaptiveState where
  freqs : List Nat
  tree : Node
  count : Nat
  bits : List Bool
deriving DecidableEq

/-- `src/AdaptiveHuffmanCompress.cpp:60`:
`const std::vector<uint32_t> initFreqs(257, 1);`. -/
def initFreqs : List Nat := List.replicate 257 1

/-- `src/AdaptiveHuffmanCompress.cpp:73-81`: the loop body after the
EOF/range checks — `enc.write(symbol)` with the current tree, `count++`,
`freqs.increment(symbol)`, rebuild of the code tree when `rebuildCond`
holds, and the table reset to a fresh flat table when `resetCond` holds
(in that order). -/
def adaptBody (s : AdaptiveState) (symbol : Nat) : Except String AdaptiveState :=
  match encodeSym s.tree symbol with
  | none => .error "Symbol has no code"
  | some w =>
    match (if rebuildCond (s.count + 1)
           then buildCodeTree (increment s.freqs symbol)
           else some s.tree) with
    | none => .error "Empty alphabet"
    | some tree =>
      .ok { freqs := if resetCond (s.count + 1) then initFreqs
                     else increment s.freqs symbol,
            tree := tree, count := s.count + 1, bits := s.bits ++ w }

/-- `src/AdaptiveHuffmanCompress.cpp:66-82`: the per-byte loop. -/
def adaptLoop (mem : Mem) : Nat → Nat → AdaptiveState → Except String AdaptiveState
  | _, 0, s => .ok s
  | i, fuel + 1, s =>
    let b : Int := ((mem i).val : Int)
    if b = -1 then .ok s
    else if b < 0 ∨ 255 < b then .error "Assertion error"
    else
      match adaptBody s b.toNat with
      | .error e => .error e
      | .ok s2 => adaptLoop mem (i + 1) fuel s2

/-- Modelled from the spec, §4.4: `BitOutputStream.finish` — "pads the
current partial byte with 0 bits ... and flushes"
(`BitIoStream.cpp` is not in `src/`). -/
def finishBits (bits : List Bool) : List Bool :=
  bits ++ List.replicate ((8 - bits.length % 8) % 8) false

/-- `src/AdaptiveHuffmanCompress.cpp:60-82`: INIT — flat frequency table,
initial code tree built from it, `count = 0` — followed by the per-byte
loop over the mapped region. -/
def adaptLoopPhase (mem : Mem) : Except String AdaptiveState :=
  match buildCodeTree initFreqs with
  | none => .error "Empty alphabet"
  | some t =>
    adaptLoop mem 0 numberOfBytes { freqs := initFreqs, tree := t, count := 0, bits := [] }

/-- `src/AdaptiveHuffmanCompress.cpp:60-85`: the encoding phase — the
loop, then `enc.write(256)` and `bout.finish()`, with no further update
of `freqs` or `count`. -/
def adaptiveRun (mem : Mem) : Except String AdaptiveState :=
  match adaptLoopPhase mem with
  | .error e => .error e
  | .ok s =>
    match encodeSym s.tree 256 with
    | none => .error "Symbol has no code"
    | some w => .ok { s with bits := finishBits (s.bits ++ w) }

/-- Loop-invariant of the adaptive driver: the frequency table has the
full 257 entries, all positive, and every symbol of the alphabet is
encodable with the current tree. -/
def goodState (st : AdaptiveState) : Prop :=
  st.freqs.length = 257 ∧ (∀ i, i < 257 → 0 < st.freqs.getD i 0) ∧
    ∀ sym, sym < 257 → (encodeSym st.tree sym).isSome

theorem land_two_mul_left (a b : Nat) : (2 * a) &&& (2 * b + 1) = 2 * (a &&& b) := by
  apply Nat.eq_of_testBit_eq
  intro i
  cases i with
  | zero =>
    rw [Nat.testBit_land, Nat.testBit_zero, Nat.testBit_zero, Nat.testBit_zero]
    have h1 : 2 * a % 2 = 0 := by omega
    have h2 : 2 * (a &&& b) % 2 = 0 := by omega
    simp [h1, h2]
  | succ i =>
    rw [Nat.testBit_land]
    simp only [Nat.testBit_succ]
    have h1 : 2 * a / 2 = a := by omega
    have h2 : (2 * b + 1) / 2 = b := by omega
    have h3 : 2 * (a &&& b) / 2 = a &&& b := by omega
    rw [h1, h2, h3, Nat.testBit_land]

theorem land_two_mul_add_one_left (a b : Nat) : (2 * a + 1) &&& (2 * b) = 2 * (a &&& b) := by
  apply Nat.eq_of_testBit_eq
  intro i
  cases i with
  | zero =>
    rw [Nat.testBit_land, Nat.testBit_zero, Nat.testBit_zero, Nat.testBit_zero]
    have h1 : 2 * b % 2 = 0 := by omega
    have h2 : 2 * (a &&& b) % 2 = 0 := by omega
    simp [h1, h2]
  | succ i =>
    rw [Nat.testBit_land]
    simp only [Nat.testBit_succ]
    have h1 : (2 * a + 1) / 2 = a := by omega
    have h2 : 2 * b / 2 = b := by omega
    have h3 : 2 * (a &&& b) / 2 = a &&& b := by omega
    rw [h1, h2, h3, Nat.testBit_land]

theorem land_self_eq (a : Nat) : a &&& a = a := by
  apply Nat.eq_of_testBit_eq
  intro i
  simp [Nat.testBit_land]

/-- The bit trick of `isPowerOf2`: for positive `x`, `x & (x - 1)` is zero
exactly when `x` is a power of two. -/
theorem land_pred_eq_zero_iff : ∀ x : Nat, 0 < x → ((x &&& (x - 1)) = 0 ↔ ∃ k, x = 2 ^ k) := by
  intro x
  induction x using Nat.strong_induction_on with
  | _ x ih =>
    intro hx
    rcases Nat.even_or_odd x with ⟨m, hm⟩ | ⟨m, hm⟩
    · have hx2 : x = 2 * m := by omega
      have hmpos : 0 < m := by omega
      have h1 : 2 * m - 1 = 2 * (m - 1) + 1 := by omega
      rw [hx2, h1, land_two_mul_left]
      constructor
      · intro h
        have hmm : (m &&& (m - 1)) = 0 := by omega
        obtain ⟨k, hk⟩ := (ih m (by omega) hmpos).1 hmm
        exact ⟨k + 1, by rw [hk, Nat.pow_succ]; ring⟩
      · rintro ⟨k, hk⟩
        match k with
        | 0 => omega
        | k + 1 =>
          have hp : 2 * m = 2 ^ k * 2 := by rw [← Nat.pow_succ]; omega
          have hmk : m = 2 ^ k := by omega
          have hmm : (m &&& (m - 1)) = 0 := (ih m (by omega) hmpos).2 ⟨k, hmk⟩
          omega
    · have hx2 : x = 2 * m + 1 := hm
      by_cases hm0 : m = 0
      · subst hm0
        rw [hx2]
        simp only [Nat.mul_zero, Nat.zero_add]
        constructor
        · intro _
          exact ⟨0, rfl⟩
        · intro _
          decide
      · have h1 : 2 * m + 1 - 1 = 2 * m := by omega
        rw [hx2, h1, land_two_mul_add_one_left, land_self_eq]
        constructor
        · intro h
          omega
        · rintro ⟨k, hk⟩
          match k with
          | 0 => omega
          | k + 1 =>
            have hp : 2 ^ (k + 1) = 2 ^ k * 2 := Nat.pow_succ 2 k
            omega

/-- `isPowerOf2` decides exact powers of two. -/
theorem isPowerOf2_iff (x : Nat) : isPowerOf2 x = true ↔ ∃ k, x = 2 ^ k := by
  rcases Nat.eq_zero_or_pos x with h0 | hpos
  · subst h0
    constructor
    · intro h
      exact absurd h (by decide)
    · rintro ⟨k, hk⟩
      have hp : 0 < 2 ^ k := Nat.pos_pow_of_pos k (by omega)
      omega
  · unfold isPowerOf2
    rw [Bool.and_eq_true, decide_eq_true_iff, beq_iff_eq]
    constructor
    · rintro ⟨_, h⟩
      exact (land_pred_eq_zero_iff x hpos).1 h
    · intro h
      exact ⟨hpos, (land_pred_eq_zero_iff x hpos).2 h⟩

theorem emitHeaderAux_spec (lengths : List Nat) : ∀ acc : List Bool,
    (emitHeaderAux lengths acc).1 =
      acc ++ (lengths.takeWhile (fun v => decide (v < 256))).flatMap bits8 ∧
    ((emitHeaderAux lengths acc).2 = true ↔ ∀ v ∈ lengths, v < 256) := by
  induction lengths with
  | nil =>
    intro acc
    simp [emitHeaderAux]
  | cons v rest ih =>
    intro acc
    by_cases hv : 256 ≤ v
    · have hv' : ¬ v < 256 := by omega
      refine ⟨?_, ?_⟩
      · simp [emitHeaderAux, hv, List.takeWhile_cons, hv']
      · simp only [emitHeaderAux, if_pos hv]
        constructor
        · intro h
          exact absurd h (by decide)
        · intro h
          exact absurd (h v (by simp)) hv'
    · have hv' : v < 256 := by omega
      have := ih (acc ++ bits8 v)
      refine ⟨?_, ?_⟩
      · rw [show emitHeaderAux (v :: rest) acc = emitHeaderAux rest (acc ++ bits8 v) by
          simp [emitHeaderAux, hv]]
        rw [this.1]
        simp [List.takeWhile_cons, hv']
      · rw [show emitHeaderAux (v :: rest) acc = emitHeaderAux rest (acc ++ bits8 v) by
          simp [emitHeaderAux, hv]]
        rw [this.2]
        simp [hv']

theorem ite_mod_two (n : Nat) : (if n % 2 = 1 then (1 : Nat) else 0) = n % 2 := by
  rcases Nat.mod_two_eq_zero_or_one n with h | h <;> simp [h]

/-- The eight emitted bits are exactly the big-endian representation of
the length modulo 256 (so of the length itself whenever it is below 256). -/
theorem bits8_spec (v : Nat) : (bits8 v).length = 8 ∧ ofBitsBE (bits8 v) = v % 256 := by
  constructor
  · simp [bits8]
  · have hrange : List.range 8 = [0, 1, 2, 3, 4, 5, 6, 7] := by decide
    simp only [bits8, ofBitsBE, hrange, List.map_cons, List.map_nil, List.foldl_cons,
      List.foldl_nil, Nat.shiftRight_eq_div_pow, Nat.and_one_is_mod, decide_eq_true_eq,
      ite_mod_two]
    norm_num
    have h128 : v % 256 = 128 * (v / 128 % 2) + v % 128 := by omega
    have h64 : v % 128 = 64 * (v / 64 % 2) + v % 64 := by omega
    have h32 : v % 64 = 32 * (v / 32 % 2) + v % 32 := by omega
    have h16 : v % 32 = 16 * (v / 16 % 2) + v % 16 := by omega
    have h8 : v % 16 = 8 * (v / 8 % 2) + v % 8 := by omega
    have h4 : v % 8 = 4 * (v / 4 % 2) + v % 4 := by omega
    have h2 : v % 4 = 2 * (v / 2 % 2) + v % 2 := by omega
    rw [h128, h64, h32, h16, h8, h4, h2]
    ring

theorem mem_forestSyms (s : Nat) (l : List ForestItem) :
    s ∈ forestSyms l ↔ ∃ it ∈ l, s ∈ symbolsOf it.node := by
  simp [forestSyms]

theorem forestSyms_perm {l1 l2 : List ForestItem} (h : l1.Perm l2) (s : Nat) :
    s ∈ forestSyms l1 ↔ s ∈ forestSyms l2 := by
  rw [mem_forestSyms, mem_forestSyms]
  constructor
  · rintro ⟨it, h1, h2⟩
    exact ⟨it, h.mem_iff.mp h1, h2⟩
  · rintro ⟨it, h1, h2⟩
    exact ⟨it, h.mem_iff.mpr h1, h2⟩

theorem forestSyms_merge_step (a b : ForestItem) (l : List ForestItem) (s : Nat) :
    s ∈ forestSyms
        ({ freq := a.freq + b.freq, lowest := min a.lowest b.lowest,
           node := .internal a.node b.node } :: l) ↔
      s ∈ forestSyms (a :: b :: l) := by
  simp [forestSyms, symbolsOf, or_assoc]

theorem removeMin_perm (x : ForestItem) (l : List ForestItem) :
    ((removeMin x l).1 :: (removeMin x l).2).Perm (x :: l) := by
  induction l generalizing x with
  | nil => simp [removeMin]
  | cons y ys ih =>
    by_cases h : itemLE x y = true
    · simp only [removeMin, if_pos h]
      refine List.Perm.trans (List.Perm.swap _ _ _) ?_
      refine List.Perm.trans ((ih x).cons y) (List.Perm.swap _ _ _)
    · simp only [removeMin, if_neg h]
      exact List.Perm.trans (List.Perm.swap _ _ _) ((ih y).cons x)

theorem removeMin_length (x : ForestItem) (l : List ForestItem) :
    (removeMin x l).2.length = l.length := by
  have h := (removeMin_perm x l).length_eq
  simpa using h

theorem removeMin_snd_cons (x y : ForestItem) (rest : List ForestItem) :
    ∃ z zs, (removeMin x (y :: rest)).2 = z :: zs ∧ zs.length = rest.length := by
  cases hp : (removeMin x (y :: rest)).2 with
  | nil =>
    have h := removeMin_length x (y :: rest)
    rw [hp] at h
    simp at h
  | cons z zs =>
    have h := removeMin_length x (y :: rest)
    rw [hp] at h
    simp at h
    exact ⟨z, zs, rfl, h⟩

/-- With enough fuel, merging a nonempty forest yields a root. -/
theorem mergeLoop_some : ∀ (fuel : Nat) (l : List ForestItem), l ≠ [] →
    l.length ≤ fuel + 1 → ∃ t, mergeLoop fuel l = some t := by
  intro fuel
  induction fuel with
  | zero =>
    intro l hne hlen
    match l with
    | [x] => exact ⟨x.node, rfl⟩
    | x :: y :: rest => simp at hlen
  | succ fuel ih =>
    intro l hne hlen
    match l with
    | [x] => exact ⟨x.node, rfl⟩
    | x :: y :: rest =>
      obtain ⟨z, zs, hzzs, hlen2⟩ := removeMin_snd_cons x y rest
      have hq := removeMin_length z zs
      simp only [mergeLoop, hzzs]
      apply ih
      · simp
      · simp only [List.length_cons] at hlen ⊢
        omega

/-- Merging preserves the set of leaf symbols of the forest. -/
theorem mergeLoop_mem : ∀ (fuel : Nat) (l : List ForestItem) (t : Node),
    mergeLoop fuel l = some t → ∀ s, s ∈ symbolsOf t ↔ s ∈ forestSyms l := by
  intro fuel
  induction fuel with
  | zero =>
    intro l t ht s
    match l with
    | [] => simp [mergeLoop] at ht
    | [x] =>
      simp only [mergeLoop, Option.some_inj] at ht
      subst ht
      simp [forestSyms]
    | x :: y :: rest => simp [mergeLoop] at ht
  | succ fuel ih =>
    intro l t ht s
    match l with
    | [] => simp [mergeLoop] at ht
    | [x] =>
      simp only [mergeLoop, Option.some_inj] at ht
      subst ht
      simp [forestSyms]
    | x :: y :: rest =>
      obtain ⟨z, zs, hzzs, _⟩ := removeMin_snd_cons x y rest
      simp only [mergeLoop, hzzs] at ht
      have hiter := ih _ t ht s
      rw [hiter, forestSyms_merge_step]
      have hperm1 := removeMin_perm x (y :: rest)
      rw [hzzs] at hperm1
      have hperm2 := removeMin_perm z zs
      exact forestSyms_perm ((hperm2.cons _).trans hperm1) s

/-- The leaf symbols of the initial forest are exactly the in-range
symbols with nonzero frequency. -/
theorem forestSyms_buildLeaves (freqs : List Nat) (s : Nat) :
    s ∈ forestSyms (buildLeaves freqs) ↔ s < freqs.length ∧ 0 < freqs.getD s 0 := by
  rw [mem_forestSyms]
  constructor
  · rintro ⟨it, hmem, hs⟩
    rw [buildLeaves, List.mem_filterMap] at hmem
    obtain ⟨a, ha, hf⟩ := hmem
    rw [List.mem_range] at ha
    by_cases hpos : 0 < freqs.getD a 0
    · rw [if_pos hpos, Option.some_inj] at hf
      subst hf
      simp only [symbolsOf, List.mem_singleton] at hs
      subst hs
      exact ⟨ha, hpos⟩
    · rw [if_neg hpos] at hf
      exact absurd hf (by simp)
  · rintro ⟨hlt, hpos⟩
    refine ⟨⟨freqs.getD s 0, s, .leaf s⟩, ?_, ?_⟩
    · rw [buildLeaves, List.mem_filterMap]
      exact ⟨s, List.mem_range.mpr hlt, by rw [if_pos hpos]⟩
    · simp [symbolsOf]

/-- The symbols of a built code tree are exactly the in-range symbols
with nonzero frequency. -/
theorem buildCodeTree_mem (freqs : List Nat) (t : Node)
    (ht : buildCodeTree freqs = some t) (s : Nat) :
    s ∈ symbolsOf t ↔ s < freqs.length ∧ 0 < freqs.getD s 0 := by
  rw [buildCodeTree] at ht
  rw [mergeLoop_mem _ _ _ ht s, forestSyms_buildLeaves]

/-- `buildCodeTree` succeeds whenever some in-range symbol has nonzero
frequency. -/
theorem buildCodeTree_total (freqs : List Nat) (i : Nat)
    (hi : i < freqs.length) (hpos : 0 < freqs.getD i 0) :
    ∃ t, buildCodeTree freqs = some t := by
  rw [buildCodeTree]
  apply mergeLoop_some
  · intro hnil
    have hmem := (forestSyms_buildLeaves freqs i).mpr ⟨hi, hpos⟩
    rw [hnil] at hmem
    simp [forestSyms] at hmem
  · omega

/-! ## List helpers -/

theorem getD_set_self (l : List Nat) (i v : Nat) (h : i < l.length) :
    (l.set i v).getD i 0 = v := by
  simp [List.getD_eq_getElem?_getD, List.getElem?_set_self h]

theorem getD_set_ne (l : List Nat) (i j v : Nat) (h : i ≠ j) :
    (l.set i v).getD j 0 = l.getD j 0 := by
  simp [List.getD_eq_getElem?_getD, List.getElem?_set_ne h]

theorem getD_replicate_one (n i : Nat) (h : i < n) :
    (List.replicate n 1).getD i 0 = 1 := by
  simp [List.getD_eq_getElem?_getD, List.getElem?_replicate, h]

theorem sum_set_succ (l : List Nat) (s : Nat) (h : s < l.length) :
    (l.set s (l.getD s 0 + 1)).sum = l.sum + 1 := by
  induction l generalizing s with
  | nil => simp at h
  | cons a as ih =>
    cases s with
    | zero =>
      simp [List.sum_cons]
      omega
    | succ s =>
      simp only [List.set_cons_succ, List.getD_cons_succ, List.sum_cons]
      have hs : s < as.length := by simpa using h
      rw [ih s hs]
      omega

theorem increment_length (freqs : List Nat) (s : Nat) :
    (increment freqs s).length = freqs.length := by
  simp [increment]

theorem increment_pos (freqs : List Nat) (s i : Nat) (h : 0 < freqs.getD i 0) :
    0 < (increment freqs s).getD i 0 := by
  by_cases hs : s = i
  · subst hs
    by_cases hlt : s < freqs.length
    · rw [increment, getD_set_self _ _ _ hlt]
      omega
    · rw [increment, List.set_eq_of_length_le (by omega)]
      exact h
  · rw [increment, getD_set_ne _ _ _ _ hs]
    exact h

theorem increment_getD_self (freqs : List Nat) (s : Nat) (h : s < freqs.length) :
    (increment freqs s).getD s 0 = freqs.getD s 0 + 1 := by
  rw [increment, getD_set_self _ _ _ h]

theorem increment_getD_ne (freqs : List Nat) (s j : Nat) (h : s ≠ j) :
    (increment freqs s).getD j 0 = freqs.getD j 0 := by
  rw [increment, getD_set_ne _ _ _ _ h]

theorem increment_sum (freqs : List Nat) (s : Nat) (h : s < freqs.length) :
    (increment freqs s).sum = freqs.sum + 1 :=
  sum_set_succ freqs s h

/-- A symbol is encodable exactly when it has a leaf in the tree. -/
theorem encodeSym_isSome (t : Node) (sym : Nat) :
    (encodeSym t sym).isSome ↔ sym ∈ symbolsOf t := by
  induction t with
  | leaf s =>
    by_cases h : s = sym
    · simp [encodeSym, symbolsOf, h]
    · have h' : ¬ sym = s := fun hc => h hc.symm
      simp [encodeSym, symbolsOf, h, h']
  | internal l r ihl ihr =>
    rw [symbolsOf, List.mem_append, ← ihl, ← ihr]
    cases hl : encodeSym l sym with
    | some p => simp [encodeSym, hl]
    | none =>
      cases hr : encodeSym r sym with
      | some p => simp [encodeSym, hl, hr]
      | none => simp [encodeSym, hl, hr]

/-- When `count` hits a reset boundary, the rebuild condition holds. -/
theorem rebuildCond_of_reset (count : Nat) (h : count % 262144 = 0) :
    rebuildCond count = true := by
  simp [rebuildCond, h]

/-- Unfolding equation for a successful `adaptBody` step. -/
theorem adaptBody_eq (s : AdaptiveState) (symbol : Nat) (w : List Bool) (t : Node)
    (hw : encodeSym s.tree symbol = some w)
    (ht : (if rebuildCond (s.count + 1)
           then buildCodeTree (increment s.freqs symbol)
           else some s.tree) = some t) :
    adaptBody s symbol = .ok
      { freqs := if resetCond (s.count + 1) then initFreqs
                 else increment s.freqs symbol,
        tree := t, count := s.count + 1, bits := s.bits ++ w } := by
  unfold adaptBody
  rw [hw, ht]

/-- Unfolding equation for an `adaptBody` step at a reset boundary: the
tree comes from the incremented pre-reset table, the table from the flat
prior. -/
theorem adaptBody_reset_eq (s : AdaptiveState) (symbol : Nat) (w : List Bool) (t : Node)
    (hw : encodeSym s.tree symbol = some w)
    (hb : (s.count + 1) % 262144 = 0)
    (htt : buildCodeTree (increment s.freqs symbol) = some t) :
    adaptBody s symbol = .ok
      { freqs := initFreqs, tree := t, count := s.count + 1, bits := s.bits ++ w } := by
  have hrb : rebuildCond (s.count + 1) = true := rebuildCond_of_reset _ hb
  have hrs : resetCond (s.count + 1) = true := by simp [resetCond, hb]
  have h := adaptBody_eq s symbol w t hw (by rw [if_pos hrb]; exact htt)
  rw [h, if_pos hrs]

/-! ## Loop lemmas -/

/-- The scan loop runs all its iterations: the byte read from the
`unsigned char` region is in `[0,255]`, so neither the `b == EOF` break
nor the range assertion ever fires; the table keeps its length, gains
exactly one count per iteration, and entry 256 is never touched. -/
theorem scanFrom_spec (mem : Mem) : ∀ (fuel i iters : Nat) (freqs : List Nat),
    256 < freqs.length →
    ∃ fr, scanFrom mem i fuel freqs iters = .ok (fr, iters + fuel) ∧
      fr.length = freqs.length ∧ fr.sum = freqs.sum + fuel ∧
      fr.getD 256 0 = freqs.getD 256 0 := by
  intro fuel
  induction fuel with
  | zero =>
    intro i iters freqs _
    exact ⟨freqs, rfl, rfl, by omega, rfl⟩
  | succ fuel ih =>
    intro i iters freqs hlen
    have hb := (mem i).isLt
    have h1 : ¬ (((mem i).val : Int) = -1) := by omega
    have h2 : ¬ ((((mem i).val : Int)) < 0 ∨ 255 < (((mem i).val : Int))) := by omega
    have htn : (((mem i).val : Int)).toNat = (mem i).val := by omega
    obtain ⟨fr, hok, hl, hs, h256⟩ :=
      ih (i + 1) (iters + 1) (increment freqs ((mem i).val))
        (by rw [increment_length]; exact hlen)
    refine ⟨fr, ?_, ?_, ?_, ?_⟩
    · simp only [scanFrom, htn]
      rw [if_neg h1, if_neg h2]
      have harr : iters + 1 + fuel = iters + (fuel + 1) := by omega
      rw [← harr]
      exact hok
    · rw [hl, increment_length]
    · rw [hs, increment_sum _ _ (by omega)]
      omega
    · rw [h256, increment_getD_ne _ _ _ (by omega)]

/-- One adaptive loop body preserves the invariant and advances `count`. -/
theorem adaptBody_good (st : AdaptiveState) (symbol : Nat) (hgood : goodState st)
    (hsym : symbol < 257) :
    ∃ st2, adaptBody st symbol = .ok st2 ∧ goodState st2 ∧ st2.count = st.count + 1 := by
  obtain ⟨hlen, hpos, henc⟩ := hgood
  obtain ⟨w, hw⟩ := Option.isSome_iff_exists.mp (henc symbol hsym)
  have hlen2 : (increment st.freqs symbol).length = 257 := by
    rw [increment_length, hlen]
  have hpos2 : ∀ i, i < 257 → 0 < (increment st.freqs symbol).getD i 0 :=
    fun i hi => increment_pos _ _ _ (hpos i hi)
  have hinitlen : initFreqs.length = 257 := by
    simp only [initFreqs, List.length_replicate]
  have hinitpos : ∀ i, i < 257 → 0 < initFreqs.getD i 0 := by
    intro i hi
    rw [initFreqs, getD_replicate_one _ _ hi]
    exact Nat.one_pos
  have hfr : ∀ fr2 : List Nat, fr2.length = 257 → (∀ i, i < 257 → 0 < fr2.getD i 0) →
      (if resetCond (st.count + 1) then initFreqs else fr2).length = 257 ∧
      ∀ i, i < 257 → 0 < (if resetCond (st.count + 1) then initFreqs else fr2).getD i 0 := by
    intro fr2 ha hb
    by_cases hrs : resetCond (st.count + 1) = true
    · simp only [hrs, if_true]
      exact ⟨hinitlen, hinitpos⟩
    · rw [Bool.not_eq_true] at hrs
      simp only [hrs, Bool.false_eq_true, if_false]
      exact ⟨ha, hb⟩
  by_cases hrb : rebuildCond (st.count + 1) = true
  · obtain ⟨t, htt⟩ :=
      buildCodeTree_total (increment st.freqs symbol) 0 (by omega) (hpos2 0 (by omega))
    have htfull : ∀ s2, s2 < 257 → (encodeSym t s2).isSome := by
      intro s2 h2
      rw [encodeSym_isSome, buildCodeTree_mem _ _ htt]
      exact ⟨by rw [hlen2]; exact h2, hpos2 s2 h2⟩
    have hstep := adaptBody_eq st symbol w t hw (by rw [if_pos hrb]; exact htt)
    obtain ⟨ha, hb⟩ := hfr (increment st.freqs symbol) hlen2 hpos2
    exact ⟨_, hstep, ⟨ha, hb, htfull⟩, rfl⟩
  · have hrb2 : ¬ (rebuildCond (st.count + 1) = true) := hrb
    have hstep := adaptBody_eq st symbol w st.tree hw (by rw [if_neg hrb2])
    obtain ⟨ha, hb⟩ := hfr (increment st.freqs symbol) hlen2 hpos2
    exact ⟨_, hstep, ⟨ha, hb, henc⟩, rfl⟩

/-- The adaptive loop runs all its iterations, preserving the invariant
and counting one symbol per iteration. -/
theorem adaptLoop_good (mem : Mem) : ∀ (fuel i : Nat) (st : AdaptiveState),
    goodState st →
    ∃ st2, adaptLoop mem i fuel st = .ok st2 ∧ goodState st2 ∧
      st2.count = st.count + fuel := by
  intro fuel
  induction fuel with
  | zero =>
    intro i st h
    exact ⟨st, rfl, h, rfl⟩
  | succ fuel ih =>
    intro i st h
    have hb := (mem i).isLt
    have h1 : ¬ (((mem i).val : Int) = -1) := by omega
    have h2 : ¬ ((((mem i).val : Int)) < 0 ∨ 255 < (((mem i).val : Int))) := by omega
    have htn : (((mem i).val : Int)).toNat = (mem i).val := by omega
    obtain ⟨stb, hstb, hgoodb, hcountb⟩ := adaptBody_good st ((mem i).val) h (by omega)
    obtain ⟨st2, hok, hgood2, hcount2⟩ := ih (i + 1) stb hgoodb
    refine ⟨st2, ?_, hgood2, by omega⟩
    simp only [adaptLoop, htn]
    rw [if_neg h1, if_neg h2, hstb]
    exact hok

/-- The INIT phase succeeds and the loop processes exactly
`numberOfBytes` symbols. -/
theorem adaptLoopPhase_good (mem : Mem) :
    ∃ st, adaptLoopPhase mem = .ok st ∧ goodState st ∧ st.count = numberOfBytes := by
  have hlen : initFreqs.length = 257 := by
    simp only [initFreqs, List.length_replicate]
  have hpos : ∀ i, i < 257 → 0 < initFreqs.getD i 0 := by
    intro i hi
    rw [initFreqs, getD_replicate_one _ _ hi]
    exact Nat.one_pos
  obtain ⟨t, htt⟩ := buildCodeTree_total initFreqs 0 (by omega) (hpos 0 (by omega))
  have htfull : ∀ s2, s2 < 257 → (encodeSym t s2).isSome := by
    intro s2 h2
    rw [encodeSym_isSome, buildCodeTree_mem _ _ htt]
    exact ⟨by rw [hlen]; exact h2, hpos s2 h2⟩
  obtain ⟨st, hok, hgood, hcount⟩ :=
    adaptLoop_good mem numberOfBytes 0
      { freqs := initFreqs, tree := t, count := 0, bits := [] } ⟨hlen, hpos, htfull⟩
  have hc : st.count = numberOfBytes := by
    simpa using hcount
  refine ⟨st, ?_, hgood, hc⟩
  unfold adaptLoopPhase
  rw [htt]
  exact hok

/-- The full adaptive encoding phase: it succeeds; the end-marker is
encoded with the tree the loop left behind and the stream is finished,
while `freqs`, `tree` and `count` are exactly the loop's. -/
theorem adaptiveRun_spec (mem : Mem) :
    ∃ s s2, adaptLoopPhase mem = .ok s ∧ adaptiveRun mem = .ok s2 ∧
      s2.freqs = s.freqs ∧ s2.tree = s.tree ∧ s2.count = s.count ∧
      (∃ w, encodeSym s.tree 256 = some w ∧ s2.bits = finishBits (s.bits ++ w)) ∧
      goodState s ∧ s.count = numberOfBytes := by
  obtain ⟨s, hok, hgood, hcount⟩ := adaptLoopPhase_good mem
  obtain ⟨w, hw⟩ := Option.isSome_iff_exists.mp (hgood.2.2 256 (by omega))
  refine ⟨s, { s with bits := finishBits (s.bits ++ w) }, hok, ?_, rfl, rfl, rfl,
    ⟨w, hw, rfl⟩, hgood, hcount⟩
  unfold adaptiveRun
  rw [hok]
  show (match encodeSym s.tree 256 with
        | none => Except.error "Symbol has no code"
        | some w2 => Except.ok { s with bits := finishBits (s.bits ++ w2) }) =
          Except.ok { s with bits := finishBits (s.bits ++ w) }
  rw [hw]

/-! ## Claim theorems -/

/-- C1: the claim says the static compressor's output file consists
exactly of the 257-byte header plus the Huffman bit stream.  The code
contradicts it: after `bout.finish()`, the driver reopens the output with
a truncating `fopen(outputFile, "wb")` and writes only the bytes of `v1`
(never populated), so the final file is empty — it contains neither the
header nor the bit stream, whatever the encoder produced. -/
theorem c1_final_output_is_v1_not_encoding :
    ∀ encoded : List Nat, finalOutputFile encoded = v1 ∧ v1 = [] := by
  intro encoded
  exact ⟨rfl, rfl⟩

/-- C2: in the adaptive compressor the tree-rebuild guard of line 78
holds exactly when (`count < 262144` and `count` is an exact power of
two) or `count` is an exact multiple of 262144. -/
theorem c2_rebuild_schedule_iff (count : Nat) :
    rebuildCond count = true ↔
      ((count < 262144 ∧ ∃ k, count = 2 ^ k) ∨ 262144 ∣ count) := by
  unfold rebuildCond
  rw [Bool.or_eq_true, Bool.and_eq_true, decide_eq_true_iff, beq_iff_eq, isPowerOf2_iff]
  have hdvd : 262144 ∣ count ↔ count % 262144 = 0 := by
    constructor
    · intro h
      omega
    · intro h
      omega
  rw [hdvd]

/-- C3: at a reset boundary (`count` a multiple of 262144) the loop body
first rebuilds the code tree from the incremented pre-reset frequency
table and only afterwards replaces the table by a fresh flat copy: the
resulting state's tree is built from the pre-reset counts and its table
is the flat prior. -/
theorem c3_reset_follows_rebuild (s : AdaptiveState) (symbol : Nat) (s2 : AdaptiveState)
    (hb : (s.count + 1) % 262144 = 0) (h : adaptBody s symbol = .ok s2) :
    s2.freqs = initFreqs ∧ buildCodeTree (increment s.freqs symbol) = some s2.tree := by
  have hrb : rebuildCond (s.count + 1) = true := rebuildCond_of_reset _ hb
  have hrs : resetCond (s.count + 1) = true := by simp [resetCond, hb]
  rcases hw : encodeSym s.tree symbol with _ | w
  · unfold adaptBody at h
    rw [hw] at h
    exact Except.noConfusion h
  · rcases htt : buildCodeTree (increment s.freqs symbol) with _ | t
    · have hstep : adaptBody s symbol = .error "Empty alphabet" := by
        unfold adaptBody
        rw [hw, if_pos hrb, htt]
      rw [hstep] at h
      exact Except.noConfusion h
    · have hstep := adaptBody_reset_eq s symbol w t hw hb htt
      rw [hstep] at h
      injection h with h2
      rw [← h2]
      exact ⟨rfl, rfl⟩

/-- Witness for C3: a concrete state at `count = 262143` stepping over a
zero byte; the resulting table is flat and the tree is built from the
pre-reset table. -/
theorem c3_reset_follows_rebuild_witness :
    ∃ s2, adaptBody { freqs := initFreqs, tree := .leaf 0, count := 262143, bits := [] } 0 =
        .ok s2 ∧
      (s2.freqs = initFreqs ∧ buildCodeTree (increment initFreqs 0) = some s2.tree) := by
  have hpos0 : 0 < (increment initFreqs 0).getD 0 0 := by
    apply increment_pos
    rw [initFreqs, getD_replicate_one _ _ (by omega)]
    exact Nat.one_pos
  have hlen : (increment initFreqs 0).length = 257 := by
    rw [increment_length]
    simp only [initFreqs, List.length_replicate]
  obtain ⟨t, htt⟩ := buildCodeTree_total (increment initFreqs 0) 0 (by omega) hpos0
  have hw0 : encodeSym (Node.leaf 0) 0 = some [] := by
    unfold encodeSym
    rw [if_pos rfl]
  have hb0 : (262143 + 1) % 262144 = 0 := by omega
  have hstep := adaptBody_reset_eq
    { freqs := initFreqs, tree := .leaf 0, count := 262143, bits := [] } 0 [] t hw0 hb0 htt
  exact ⟨_, hstep, c3_reset_follows_rebuild
    { freqs := initFreqs, tree := .leaf 0, count := 262143, bits := [] } 0 _ hb0 hstep⟩

/-- C4 counterexample: the claim predicts that the trailing end-marker is
a counted STREAM iteration, so after a run the count would be
`numberOfBytes + 1`; on the all-zero input region the adaptive run ends
with `count = numberOfBytes`. -/
theorem c4_end_marker_counted_counterexample :
    ¬ ((adaptiveRun fun _ => (0 : Fin 256)).map (fun st => st.count) =
        .ok (numberOfBytes + 1)) := by
  obtain ⟨s, s2, hok, hrun, _, _, hc, _, _, hcount⟩ :=
    adaptiveRun_spec (fun _ => (0 : Fin 256))
  intro hcontra
  rw [hrun] at hcontra
  have : s2.count = numberOfBytes + 1 := by
    simpa [Except.map] using hcontra
  omega

/-- C4 (amended): after the loop the trailing end-marker symbol 256 is
encoded with the loop's final tree and the bit stream is finished, but
its frequency is not incremented, `count` is not incremented, and no
rebuild or reset is triggered by it: the final `freqs`, `tree` and
`count` are exactly those of the loop. -/
theorem c4_end_marker_no_state_update (mem : Mem) :
    ∃ s s2, adaptLoopPhase mem = .ok s ∧ adaptiveRun mem = .ok s2 ∧
      s2.count = s.count ∧ s2.freqs = s.freqs ∧ s2.tree = s.tree ∧
      ∃ w, encodeSym s.tree 256 = some w ∧ s2.bits = finishBits (s.bits ++ w) := by
  obtain ⟨s, s2, hok, hrun, hf, ht, hc, hw, _, _⟩ := adaptiveRun_spec mem
  exact ⟨s, s2, hok, hrun, hc, hf, ht, hw⟩

/-- C5: the header emission walks the code lengths for symbols `0..256`
in ascending order; it succeeds exactly when every length is below 256,
the emitted bits are exactly eight big-endian bits per length for the
prefix of in-range lengths (so on the first length `≥ 256` the domain
error fires before any bit of that symbol is written), and the eight
bits of a length encode its value big-endian. -/
theorem c5_header_emission (lengths : List Nat) :
    ((emitHeaderAux lengths []).2 = true ↔ ∀ v ∈ lengths, v < 256) ∧
    (emitHeaderAux lengths []).1 =
      (lengths.takeWhile (fun v => decide (v < 256))).flatMap bits8 ∧
    ∀ v, (bits8 v).length = 8 ∧ ofBitsBE (bits8 v) = v % 256 := by
  obtain ⟨h1, h2⟩ := emitHeaderAux_spec lengths []
  exact ⟨h2, by simpa using h1, bits8_spec⟩

/-- C6: the claim says the SCAN phase counts exactly the bytes of the
input for every input including the empty one.  The code instead always
iterates `numberOfBytes = 143666240` times over the mapped region, so
for every region contents the byte counts sum to `numberOfBytes` (plus
the single EOF count), never to the actual input length.  The EOF entry
does get exactly 1. -/
theorem c6_scan_total_is_fixed (mem : Mem) :
    ∃ fr, staticScan mem = .ok fr ∧ fr.length = 257 ∧
      fr.sum = numberOfBytes + 1 ∧ fr.getD 256 0 = 1 := by
  obtain ⟨fr0, hok, hlen, hsum, h256⟩ :=
    scanFrom_spec mem numberOfBytes 0 0 (List.replicate 257 0)
      (by simp only [List.length_replicate]; omega)
  have hlen0 : fr0.length = 257 := by
    rw [hlen]
    simp only [List.length_replicate]
  have hz : (List.replicate 257 (0 : Nat)).sum = 0 := by
    apply List.sum_eq_zero
    intro x hx
    simpa using List.eq_of_mem_replicate hx
  have hz256 : (List.replicate 257 (0 : Nat)).getD 256 0 = 0 := by
    rw [List.getD_eq_getElem?_getD, List.getElem?_replicate_of_lt (by omega)]
    rfl
  refine ⟨increment fr0 256, ?_, ?_, ?_, ?_⟩
  · unfold staticScan
    rw [hok]
    rfl
  · rw [increment_length, hlen0]
  · rw [increment_sum _ _ (by omega), hsum, hz]
    omega
  · rw [increment_getD_self _ _ (by omega), h256, hz256]

/-- C7: the adaptive driver starts from the flat all-ones 257-entry
table, builds the initial code tree from it before the loop runs, and
every one of the 257 symbols is encodable with that initial tree. -/
theorem c7_flat_init_all_encodable :
    initFreqs = List.replicate 257 1 ∧
    ∃ t, buildCodeTree initFreqs = some t ∧
      ((List.range 257).all fun sym => (encodeSym t sym).isSome) = true ∧
      ∀ mem : Mem, adaptLoopPhase mem =
        adaptLoop mem 0 numberOfBytes
          { freqs := initFreqs, tree := t, count := 0, bits := [] } := by
  refine ⟨rfl, ?_⟩
  have hlen : initFreqs.length = 257 := by
    simp only [initFreqs, List.length_replicate]
  have hpos : ∀ i, i < 257 → 0 < initFreqs.getD i 0 := by
    intro i hi
    rw [initFreqs, getD_replicate_one _ _ hi]
    exact Nat.one_pos
  obtain ⟨t, htt⟩ := buildCodeTree_total initFreqs 0 (by omega) (hpos 0 (by omega))
  refine ⟨t, htt, ?_, ?_⟩
  · rw [List.all_eq_true]
    intro sym hsym
    rw [List.mem_range] at hsym
    rw [encodeSym_isSome, buildCodeTree_mem _ _ htt]
    exact ⟨by rw [hlen]; exact hsym, hpos sym hsym⟩
  · intro mem
    unfold adaptLoopPhase
    rw [htt]

/-- C8: the claim says a thrown domain/logic error is reported by the
program on stderr with a failure exit.  The code's handler is
`catch (const char *msg)`, which does not match `std::domain_error` or
`std::logic_error`; on a header length `≥ 256` the thrown domain error
escapes `main` and the reporting path never runs. -/
theorem c8_reported_counterexample :
    ¬ ∃ m, staticMainOutcome [256] = Outcome.reportedFailure m := by
  rintro ⟨m, hm⟩
  have hout : staticMainOutcome [256] =
      Outcome.uncaughtTermination (.domainError "The code for a symbol is too long") := rfl
  rw [hout] at hm
  exact absurd hm (by simp)

/-- C8 (amended): a domain error thrown inside the `try` block is not
matched by the `catch (const char *)` clause: the exception escapes the
handler and the run is terminated by the runtime, not through the
program's report-and-return-failure path of lines 102–105. -/
theorem c8_errors_escape_catch (lengths : List Nat) (e : CppExn)
    (h : headerBody lengths = .error e) :
    staticMainOutcome lengths = .uncaughtTermination e ∧
      ∀ m, staticMainOutcome lengths ≠ .reportedFailure m := by
  have he : e = .domainError "The code for a symbol is too long" := by
    unfold headerBody at h
    by_cases hb : (emitHeaderAux lengths []).2 = true
    · rw [if_pos hb] at h
      exact absurd h (by simp)
    · rw [if_neg hb] at h
      cases h
      rfl
  subst he
  constructor
  · unfold staticMainOutcome tryCatchConstChar
    rw [h]
  · intro m hm
    unfold staticMainOutcome tryCatchConstChar at hm
    rw [h] at hm
    exact absurd hm (by simp)

/-- Witness for C8 at the concrete length list `[256]`. -/
theorem c8_errors_escape_catch_witness :
    staticMainOutcome [256] =
        .uncaughtTermination (.domainError "The code for a symbol is too long") ∧
      ∀ m, staticMainOutcome [256] ≠ .reportedFailure m :=
  c8_errors_escape_catch [256] _ (by rfl)

/-- C9: for every contents of the mapped region, both per-byte loops run
exactly `numberOfBytes = 143666240` iterations: each symbol comes from an
`unsigned char` and is in `[0,255]`, so the `symbol == EOF` break and the
out-of-range assertion are unreachable, and the loop does not stop at the
input file's real length. -/
theorem c9_loops_run_all_iterations (mem : Mem) :
    (∃ fr, scanFrom mem 0 numberOfBytes (List.replicate 257 0) 0 =
      .ok (fr, numberOfBytes)) ∧
    ∃ st, adaptLoopPhase mem = .ok st ∧ st.count = numberOfBytes := by
  constructor
  · obtain ⟨fr, hok, _, _, _⟩ :=
      scanFrom_spec mem numberOfBytes 0 0 (List.replicate 257 0)
        (by simp only [List.length_replicate]; omega)
    rw [Nat.zero_add] at hok
    exact ⟨fr, hok⟩
  · obtain ⟨st, hok, _, hc⟩ := adaptLoopPhase_good mem
    exact ⟨st, hok, hc⟩

/-- C10: the final contents of the output file do not depend on the
input: whatever byte sequence the encoding phase produced, both drivers
truncate the output file again and write the bytes of the external,
never-populated vector `v1`, so any two runs leave identical files. -/
theorem c10_output_noninterference (encoded1 encoded2 : List Nat) :
    finalOutputFile encoded1 = finalOutputFile encoded2 := rfl
